import Mathlib

/-!
# Verification of the TrackDayScheduleMaker schedule-generation core

Shallow embedding of `src/lib/scheduleGenerator.ts` (functions `createGroups`,
`createSessions`, `assignDriversToGroups`) together with the data model from
`src/types/index.ts`.

Modelling conventions:

* JavaScript numbers are modelled as `Int` (all quantities in the source are
  integer minute counts; configuration durations are non-negative integers by
  the specification invariant, so they are carried as `Nat` fields and cast).
* `Math.floor(a / b)` for `b > 0` is `Int.fdiv a b`; JS `%` (sign of the
  dividend) is `Int.tmod`.
* The source's division `availableMorningTime / (sessionDuration * groups.length)`
  is unguarded.  When the divisor is `0`, JS produces `Infinity` (positive
  numerator, making the subsequent `for` loop unbounded: it never terminates) or
  `NaN`/`-Infinity` (numerator `≤ 0`, poisoning every later time value with
  `NaN`).  Both degenerate outcomes are represented by `none`: the builder
  produces no well-defined timeline.  Likewise a `startTime` string that does
  not parse as two `Nat` fields separated by a colon would poison all times with
  `NaN` and is represented by `none`.
* `Array.prototype.sort` is stable (ES2019).  For a consistent comparator a
  stable sort's output is uniquely determined by the comparator, so any stable
  sorting algorithm is a faithful model; the structural `stableSort` (insertion
  sort, which inserts earlier elements before comparator-equal later ones) is
  used so that results compute by kernel reduction.  The random shuffle
  `[...drivers].sort(() => Math.random() - 0.5)`
  produces an implementation-defined permutation of the input; it is modelled by
  an explicit `shuffled` parameter, and theorems quantify over every permutation.
* `String.prototype.localeCompare` is locale dependent; it is modelled by a
  comparator parameter `lc` wherever the result does not depend on the
  comparator, and by the concrete `localeCompare` model below (default-locale
  collation for ASCII strings: a case-insensitive primary pass, then a
  tie-breaking pass on raw code units) where concrete evaluation is required.
  The tie-break distinguishes exactly the pairs real ICU collation
  distinguishes at the case level (strings equal up to ASCII case); no theorem
  below depends on the direction of that tie-break.
* A JS object with string keys iterates its keys in insertion order; the
  `Record<string, Driver[]>` is modelled as an association list in insertion
  order.
-/

/-- `Driver` from `src/types/index.ts`. -/
inductive SkillLevel where
  | beginner
  | intermediate
  | advanced
deriving DecidableEq

/-- The string value of the `skillLevel` union type in `src/types/index.ts`. -/
def skillString : SkillLevel → String
  | .beginner => "beginner"
  | .intermediate => "intermediate"
  | .advanced => "advanced"

structure Driver where
  id : String
  name : String
  skillLevel : SkillLevel
deriving DecidableEq

inductive GroupingMethod where
  | skill
  | random
deriving DecidableEq

/-- `TrackDayConfig` from `src/types/index.ts`.  Durations are minutes; the
specification invariant (§3) makes them non-negative integers, so they are
`Nat`. `startTime` is kept as the source's `"HH:MM"` string. -/
structure TrackDayConfig where
  startTime : String
  totalTime : Nat
  sessionDuration : Nat
  numberOfRunGroups : Nat
  groupingMethod : GroupingMethod
  lunchBreakDuration : Nat
  techInspectionDuration : Nat
  driverMeetingDuration : Nat
  breakDuration : Nat
deriving DecidableEq

/-- The `type` union of `Session` in `src/types/index.ts`.  The source value
`'break'` is called `rest` here because `break` is a Lean keyword. -/
inductive SessionType where
  | track
  | rest
  | meeting
  | tech
deriving DecidableEq

/-- `Session` from `src/types/index.ts`.  The source stores only the formatted
clock strings; `relStart`/`relEnd` additionally record the relative minute
values passed to `formatTime` (the running cursor), which the formatted fields
are derived from.  All timing claims are stated on these numeric fields. -/
structure Session where
  id : String
  relStart : Int
  relEnd : Int
  startTime : String
  endTime : String
  group : String
  type : SessionType
  description : String
deriving DecidableEq

/-- `config.startTime.split(':').map(Number)` destructured to
`[startHour, startMinute]`, then `startHour * 60 + startMinute`.  JS ignores any
parts beyond the first two.  A part that is not a plain decimal numeral would
yield `NaN` in JS and poison every formatted time; that case is `none` (the
specification guarantees a valid `"HH:MM"` string). -/
def splitOnChar (sep : Char) : List Char → List (List Char)
  | [] => [[]]
  | c :: cs =>
    match splitOnChar sep cs with
    | [] => [[]]
    | h :: t => if c = sep then [] :: h :: t else (c :: h) :: t

/-- Decimal parsing of one split part, as `Number` applied to a numeral
string.  A part containing a non-digit is `none` (JS would yield `NaN` and
poison the timeline; the specification guarantees a plain `"HH:MM"` string, so
the empty-part case — where JS `Number` gives `0` — does not arise either). -/
def digitsToNat : List Char → Nat → Option Nat
  | [], acc => some acc
  | c :: cs, acc =>
    if c.isDigit then digitsToNat cs (acc * 10 + (c.toNat - 48)) else none

def parseNatPart : List Char → Option Nat
  | [] => none
  | l => digitsToNat l 0

def startMinutes (s : String) : Option Nat :=
  match splitOnChar ':' s.data with
  | h :: m :: _ =>
    match parseNatPart h, parseNatPart m with
    | some hh, some mm => some (hh * 60 + mm)
    | _, _ => none
  | _ => none

/-- `n.toString().padStart(2, '0')`. -/
def pad2 (s : String) : String :=
  if s.length < 2 then "0" ++ s else s

/-- The `formatTime` closure in `createSessions`: `hours = Math.floor(total/60)`,
`mins = total % 60`, each rendered via `toString().padStart(2,'0')`. -/
def formatTime (total : Int) : String :=
  pad2 (toString (Int.fdiv total 60)) ++ ":" ++ pad2 (toString (Int.tmod total 60))

/-- `group.toLowerCase().replace(' ', '-')`: JS `replace` with a string pattern
replaces only the first occurrence. -/
def dashFirstSpace : List Char → List Char
  | [] => []
  | c :: cs => if c = ' ' then '-' :: cs else c :: dashFirstSpace cs

/-- `toLowerCase()` on ASCII strings: lower-case every character (structural
version of `String.toLower`). -/
def toLowerStr (s : String) : String :=
  String.mk (s.data.map Char.toLower)

def slugify (g : String) : String :=
  String.mk (dashFirstSpace (toLowerStr g).data)

/-- `skill.charAt(0).toUpperCase() + skill.slice(1)`. -/
def capitalizeStr (s : String) : String :=
  match s.data with
  | [] => s
  | c :: cs => String.mk (c.toUpper :: cs)

/-- The literal `['beginner', 'intermediate', 'advanced']` used by both
`createGroups` and `assignDriversToGroups`. -/
def skillsInOrder : List SkillLevel := [.beginner, .intermediate, .advanced]

/-- `createGroups` from `src/lib/scheduleGenerator.ts`. -/
def createGroups (drivers : List Driver) (config : TrackDayConfig) : List String :=
  match config.groupingMethod with
  | .skill =>
    (skillsInOrder.filter fun sk => drivers.any fun d => d.skillLevel == sk).map
      fun sk => capitalizeStr (skillString sk)
  | .random =>
    (List.range config.numberOfRunGroups).map fun i => "Group " ++ Nat.repr (i + 1)

/-- Builds one `Session` record; `fmt` is the `formatTime` closure over the
parsed start time. -/
def mkSession (fmt : Int → String) (id : String) (s e : Int) (g : String)
    (ty : SessionType) (d : String) : Session :=
  ⟨id, s, e, fmt s, fmt e, g, ty, d⟩

/-- The inner `for (const group of groups)` loop of a single round: one track
session per group, advancing the cursor by `sessionDuration` each time.
Returns the emitted sessions and the final cursor. -/
def trackRound (fmt : Int → String) (sd : Nat) (half descHalf : String)
    (round : Nat) : List String → Int → List Session × Int
  | [], t => ([], t)
  | g :: gs, t =>
    let s : Session :=
      mkSession fmt ("track-" ++ half ++ "-" ++ Nat.repr round ++ "-" ++ slugify g)
        t (t + (sd : Int)) g .track (g ++ " - " ++ descHalf ++ " " ++ Nat.repr round)
    let rest := trackRound fmt sd half descHalf round gs (t + (sd : Int))
    (s :: rest.1, rest.2)

/-- The outer `for (let round = 1; round <= R; round++)` loop of either half:
after every round except the last, if `breakDuration > 0`, a `Break` session is
emitted.  `round` is the source's loop counter, the second argument is the
number of rounds still to run (the loop guard `round < R` is `0 < rem` here). -/
def packRounds (fmt : Int → String) (sd bd : Nat) (half descHalf : String)
    (groups : List String) : Nat → Nat → Int → List Session × Int
  | _, 0, t => ([], t)
  | round, rem + 1, t =>
    let rd := trackRound fmt sd half descHalf round groups t
    if 0 < rem ∧ 0 < bd then
      let b : Session :=
        mkSession fmt ("break-" ++ half ++ "-" ++ Nat.repr round)
          rd.2 (rd.2 + (bd : Int)) "All" .rest "Break"
      let rest := packRounds fmt sd bd half descHalf groups (round + 1) rem (rd.2 + (bd : Int))
      (rd.1 ++ b :: rest.1, rest.2)
    else
      let rest := packRounds fmt sd bd half descHalf groups (round + 1) rem rd.2
      (rd.1 ++ rest.1, rest.2)

/-- `latestLunchStart - startTimeInMinutes` where `latestLunchStart = 14 * 60`. -/
def maxLunchStartFromStart (startMin : Nat) : Int :=
  840 - (startMin : Int)

/-- `Math.min(240, maxLunchStartFromStart)`. -/
def desiredLunchStart (startMin : Nat) : Int :=
  min 240 (maxLunchStartFromStart startMin)

/-- The cursor value after the driver meeting and tech inspection. -/
def tAfterTech (config : TrackDayConfig) : Int :=
  (config.driverMeetingDuration : Int) + (config.techInspectionDuration : Int)

/-- `Math.floor(availableMorningTime / (sessionDuration * groups.length))`.
Meaningful only when the divisor is non-zero; `createSessions` guards that. -/
def morningSessionsPerGroup (config : TrackDayConfig) (groups : List String)
    (startMin : Nat) : Int :=
  Int.fdiv (desiredLunchStart startMin - tAfterTech config)
    ((config.sessionDuration : Int) * (groups.length : Int))

/-- The `formatTime` closure of `createSessions` over the parsed start time. -/
def fmtAt (startMin : Nat) : Int → String :=
  fun rel => formatTime ((startMin : Int) + rel)

/-- The round-packing divisor `config.sessionDuration * groups.length`. -/
def packDivisor (config : TrackDayConfig) (groups : List String) : Int :=
  (config.sessionDuration : Int) * (groups.length : Int)

/-- The morning loop of `createSessions`: emitted sessions and final cursor. -/
def morningPack (config : TrackDayConfig) (groups : List String) (startMin : Nat) :
    List Session × Int :=
  packRounds (fmtAt startMin) config.sessionDuration config.breakDuration "morning"
    "Morning Session" groups 1 (morningSessionsPerGroup config groups startMin).toNat
    (tAfterTech config)

/-- `actualLunchStart = currentTime + morningSessionsPerGroup * sessionDuration
* groups.length`, where `currentTime` is the cursor after tech inspection (the
source computes this before running the morning loop, so the inter-round
breaks it emits are not included). -/
def actualLunchStart (config : TrackDayConfig) (groups : List String)
    (startMin : Nat) : Int :=
  tAfterTech config + morningSessionsPerGroup config groups startMin * packDivisor config groups

/-- `finalLunchStart = Math.min(actualLunchStart, maxLunchStartFromStart)`. -/
def finalLunchStart (config : TrackDayConfig) (groups : List String)
    (startMin : Nat) : Int :=
  min (actualLunchStart config groups startMin) (maxLunchStartFromStart startMin)

/-- `lunchEndTime = finalLunchStart + config.lunchBreakDuration`. -/
def lunchEndTime (config : TrackDayConfig) (groups : List String)
    (startMin : Nat) : Int :=
  finalLunchStart config groups startMin + (config.lunchBreakDuration : Int)

/-- `Math.floor(remainingTime / (sessionDuration * groups.length))` where
`remainingTime = totalTime - lunchEndTime`. -/
def afternoonSessionsPerGroup (config : TrackDayConfig) (groups : List String)
    (startMin : Nat) : Int :=
  Int.fdiv ((config.totalTime : Int) - lunchEndTime config groups startMin)
    (packDivisor config groups)

/-- The afternoon loop of `createSessions`. -/
def afternoonPack (config : TrackDayConfig) (groups : List String) (startMin : Nat) :
    List Session × Int :=
  packRounds (fmtAt startMin) config.sessionDuration config.breakDuration "afternoon"
    "Afternoon Session" groups 1 (afternoonSessionsPerGroup config groups startMin).toNat
    (lunchEndTime config groups startMin)

/-- The session list pushed by `createSessions` (in push order): meeting, tech
inspection, morning rounds with inter-round breaks, lunch, afternoon rounds
with inter-round breaks. -/
def buildSessions (config : TrackDayConfig) (groups : List String) (startMin : Nat) :
    List Session :=
  let fmt := fmtAt startMin
  let meeting : Session :=
    mkSession fmt "meeting-1" 0 (config.driverMeetingDuration : Int) "All"
      .meeting "Morning Driver Meeting"
  let tech : Session :=
    mkSession fmt "tech-1" (config.driverMeetingDuration : Int) (tAfterTech config) "All"
      .tech "Tech Inspection"
  let lunch : Session :=
    mkSession fmt "lunch-1" (finalLunchStart config groups startMin)
      (lunchEndTime config groups startMin) "All" .rest "Lunch Break"
  [meeting, tech] ++ (morningPack config groups startMin).1 ++
    lunch :: (afternoonPack config groups startMin).1

/-- `createSessions` from `src/lib/scheduleGenerator.ts`.  `none` models an
unparseable start time or a zero round-packing divisor (see the module
comment: in JS those cases loop forever or return `NaN`-poisoned times). -/
def createSessions (config : TrackDayConfig) (groups : List String) :
    Option (List Session) :=
  match startMinutes config.startTime with
  | none => none
  | some startMin =>
    if packDivisor config groups = 0 then none
    else some (buildSessions config groups startMin)

/-- Insertion into a sorted list: the new element goes before the first
element it is `le`-related to.  Together with `stableSort` this models the
stable `Array.prototype.sort`: an element earlier in the input is inserted
before comparator-equal elements that came later. -/
def orderedInsert (le : α → α → Bool) (a : α) : List α → List α
  | [] => [a]
  | b :: l => if le a b then a :: b :: l else b :: orderedInsert le a l

/-- Stable sort by the Boolean comparator `le` (the model of
`Array.prototype.sort(cmp)` with `le a b = (cmp a b <= 0)`; see the module
comment). -/
def stableSort (le : α → α → Bool) : List α → List α
  | [] => []
  | a :: l => orderedInsert le a (stableSort le l)

/-- `groups[groupName].push(driver)` guarded by `if (groups[groupName])`: the
first entry whose key equals `name` has the driver appended; if no key matches
(JS: `groups[undefined]` is falsy) nothing happens. -/
def pushToGroup : List (String × List Driver) → String → Driver →
    List (String × List Driver)
  | [], _, _ => []
  | (k, ds) :: rest, name, d =>
    if k = name then (k, ds ++ [d]) :: rest
    else (k, ds) :: pushToGroup rest name d

/-- `assignDriversToGroups` from `src/lib/scheduleGenerator.ts`.

`lc` models `String.prototype.localeCompare` (instantiated with the concrete
`localeCompare` model where evaluation is needed); `shuffled` models the result
of `[...drivers].sort(() => Math.random() - 0.5)`, which is some permutation of
`drivers`.  In random mode `groupNames[index % groupNames.length]` with zero
groups is `groupNames[NaN] = undefined`, so the guarded push drops the driver;
the model's `List.get?` lookup fails the same way. -/
def assignDriversToGroups (lc : String → String → Ordering)
    (config : TrackDayConfig) (drivers shuffled : List Driver) :
    List (String × List Driver) :=
  match config.groupingMethod with
  | .skill =>
    skillsInOrder.foldl
      (fun groups sk =>
        let driversWithSkill :=
          stableSort (fun a b => lc a.name b.name != Ordering.gt)
            (drivers.filter fun d => d.skillLevel == sk)
        if 0 < driversWithSkill.length then
          groups ++ [(capitalizeStr (skillString sk), driversWithSkill)]
        else groups)
      []
  | .random =>
    let init : List (String × List Driver) :=
      (List.range config.numberOfRunGroups).map fun i => ("Group " ++ Nat.repr (i + 1), [])
    let groupNames := init.map Prod.fst
    shuffled.enum.foldl
      (fun groups p =>
        match groupNames.get? (p.1 % groupNames.length) with
        | some name => pushToGroup groups name p.2
        | none => groups)
      init

/-- Concrete model of default-locale `String.prototype.localeCompare` for ASCII
strings: a primary, case-insensitive code-point comparison (via `Char.toLower`),
then, for primary-equal strings, a tie-breaking comparison of the raw code
points.  See the module comment. -/
def cmpKeyList : List Nat → List Nat → Ordering
  | [], [] => .eq
  | [], _ :: _ => .lt
  | _ :: _, [] => .gt
  | a :: as, b :: bs =>
    match compare a b with
    | .eq => cmpKeyList as bs
    | o => o

def ciKey (s : String) : List Nat :=
  s.data.map fun c => c.toLower.toNat

def rawKey (s : String) : List Nat :=
  s.data.map Char.toNat

def localeCompare (s t : String) : Ordering :=
  match cmpKeyList (ciKey s) (ciKey t) with
  | .eq => cmpKeyList (rawKey s) (rawKey t)
  | o => o

/-- The multiset of drivers distributed over the groups of an assignment. -/
def allDrivers (groups : List (String × List Driver)) : List Driver :=
  groups.flatMap Prod.snd

/-- The multiset of driver ids distributed over the groups of an assignment. -/
def allIds (groups : List (String × List Driver)) : List String :=
  (allDrivers groups).map Driver.id

/-!
## The concrete default scenario

`startTime = "08:00"`, `totalTime = 480`, `sessionDuration = 20`, three groups,
`driverMeetingDuration = 15`, `techInspectionDuration = 30`,
`lunchBreakDuration = 60`, `breakDuration = 15` — the defaults of
`TrackDayForm` and the scenario of the round-count property.
-/

def defaultConfig : TrackDayConfig :=
  ⟨"08:00", 480, 20, 3, .random, 60, 30, 15, 15⟩

def defaultGroups : List String := ["Group 1", "Group 2", "Group 3"]

def defaultTimeline : List Session :=
  (createSessions defaultConfig defaultGroups).getD []

/-- C5: in the concrete scenario (start 08:00, totalTime 480, sessionDuration
20, 3 groups, meeting 15, inspection 30, lunch 60, inter-round break 15) the
builder emits the briefing 08:00–08:15 and the inspection 08:15–08:45, the
morning window is `min(240, 840-480) - 45 = 195` minutes, the packing divisor
is `20 × 3 = 60` (inter-round breaks excluded), and exactly
`floor(195/60) = 3` morning rounds are emitted for each of the three groups. -/
theorem c5_concrete_round_count :
    startMinutes defaultConfig.startTime = some 480 ∧
    defaultTimeline.get? 0 =
      some ⟨"meeting-1", 0, 15, "08:00", "08:15", "All", .meeting,
        "Morning Driver Meeting"⟩ ∧
    defaultTimeline.get? 1 =
      some ⟨"tech-1", 15, 45, "08:15", "08:45", "All", .tech, "Tech Inspection"⟩ ∧
    desiredLunchStart 480 - tAfterTech defaultConfig = 195 ∧
    packDivisor defaultConfig defaultGroups = 60 ∧
    morningSessionsPerGroup defaultConfig defaultGroups 480 = Int.fdiv 195 60 ∧
    morningSessionsPerGroup defaultConfig defaultGroups 480 = 3 ∧
    (morningPack defaultConfig defaultGroups 480).1.map Session.id =
      ["track-morning-1-group-1", "track-morning-1-group-2",
       "track-morning-1-group-3", "break-morning-1",
       "track-morning-2-group-1", "track-morning-2-group-2",
       "track-morning-2-group-3", "break-morning-2",
       "track-morning-3-group-1", "track-morning-3-group-2",
       "track-morning-3-group-3"] :=
  ⟨rfl, rfl, rfl, rfl, rfl, rfl, rfl, rfl⟩

/-- C2 (code bug evidence): in the default scenario the emitted lunch break
occupies `[225, 285)` while the round-3 track session of Group 3 occupies
`[235, 255)` — a group-scoped activity and the all-groups lunch overlap on the
interior interval `[235, 255)`, not merely at boundary instants, contradicting
the non-overlap property and the source comment that the lunch break has no
overlap with group sessions. -/
theorem c2_lunch_overlaps_group_session :
    defaultTimeline.get? 12 =
      some ⟨"track-morning-3-group-3", 235, 255, "11:55", "12:15", "Group 3",
        .track, "Group 3 - Morning Session 3"⟩ ∧
    defaultTimeline.get? 13 =
      some ⟨"lunch-1", 225, 285, "11:45", "12:45", "All", .rest, "Lunch Break"⟩ ∧
    (225 : Int) < 255 ∧ (235 : Int) < 285 :=
  ⟨rfl, rfl, by decide, by decide⟩

/-- C3 (code bug evidence): in the default scenario the cursor `t` after
morning round packing (rounds and inter-round breaks) is `255`, so the claimed
lunch start would be `min(255, 360) = 255`; the code instead starts the lunch
at `actualLunchStart = 45 + 3·60 = 225`, which excludes the emitted
inter-round breaks from the cursor. -/
theorem c3_lunch_start_not_cursor :
    (morningPack defaultConfig defaultGroups 480).2 = 255 ∧
    min (255 : Int) (maxLunchStartFromStart 480) = 255 ∧
    finalLunchStart defaultConfig defaultGroups 480 = 225 ∧
    ((225 : Int) ≠ 255) :=
  ⟨rfl, by decide, rfl, by decide⟩

/-- C8 (code bug evidence): the default scenario's returned session list is
not ordered by start time non-decreasing — the session at index 12 starts at
235 while the lunch break that follows it at index 13 starts at 225. -/
theorem c8_timeline_not_sorted :
    ¬ List.Pairwise (fun a b : Session => a.relStart ≤ b.relStart) defaultTimeline := by
  decide

/-- The default configuration with `numberOfRunGroups = 0` and random
grouping. -/
def zeroGroupsConfig : TrackDayConfig :=
  ⟨"08:00", 480, 20, 0, .random, 60, 30, 15, 15⟩

/-- C6 (code bug evidence): with `groupCount = 0` in random mode the group
list is empty, the round-packing divisor is `0`, and the morning window is the
positive number `195`; in JS `Math.floor(195/0) = Infinity` bounds the morning
loop, which therefore never terminates (the model returns `none`: no
well-defined timeline exists), instead of the claimed graceful zero-round
timeline. -/
theorem c6_zero_groups_no_timeline :
    createGroups [] zeroGroupsConfig = [] ∧
    packDivisor zeroGroupsConfig (createGroups [] zeroGroupsConfig) = 0 ∧
    0 < desiredLunchStart 480 - tAfterTech zeroGroupsConfig ∧
    createSessions zeroGroupsConfig (createGroups [] zeroGroupsConfig) = none :=
  ⟨rfl, rfl, by decide, rfl⟩

/-!
## The deadline property
-/

theorem ne_of_data_head {s t : String} (h : s.data.head? ≠ t.data.head?) :
    s ≠ t :=
  fun e => h (e ▸ rfl)

theorem track_id_ne_lunch (a b c : String) :
    ("track-" ++ a ++ "-" ++ b ++ "-" ++ c) ≠ "lunch-1" := by
  intro e
  have h : some 't' = some 'l' := congrArg (fun x : String => x.data.head?) e
  exact absurd h (by decide)

theorem break_id_ne_lunch (a b : String) :
    ("break-" ++ a ++ "-" ++ b) ≠ "lunch-1" := by
  intro e
  have h : some 'b' = some 'l' := congrArg (fun x : String => x.data.head?) e
  exact absurd h (by decide)

/-- Shape of every session emitted by the inner per-group loop. -/
theorem mem_trackRound {fmt : Int → String} {sd : Nat} {half descHalf : String}
    {round : Nat} :
    ∀ {gs : List String} {t : Int} {s : Session},
      s ∈ (trackRound fmt sd half descHalf round gs t).1 →
      s.type = .track ∧ s.group ∈ gs ∧
        ∃ r g, s.id = "track-" ++ half ++ "-" ++ Nat.repr r ++ "-" ++ slugify g := by
  intro gs
  induction gs with
  | nil => intro t s h; simp [trackRound] at h
  | cons g gs ih =>
    intro t s h
    simp only [trackRound, List.mem_cons] at h
    rcases h with h | h
    · subst h
      exact ⟨rfl, List.mem_cons_self g gs, round, g, rfl⟩
    · obtain ⟨h1, h2, h3⟩ := ih h
      exact ⟨h1, List.mem_cons_of_mem g h2, h3⟩

/-- Shape of every session emitted by the outer round loop: a track session
scoped to one of the groups, or an all-groups inter-round break. -/
theorem mem_packRounds {fmt : Int → String} {sd bd : Nat} {half descHalf : String}
    {groups : List String} :
    ∀ {rem round : Nat} {t : Int} {s : Session},
      s ∈ (packRounds fmt sd bd half descHalf groups round rem t).1 →
      (s.type = .track ∧ s.group ∈ groups ∧
        ∃ r g, s.id = "track-" ++ half ++ "-" ++ Nat.repr r ++ "-" ++ slugify g) ∨
      (s.type = .rest ∧ s.group = "All" ∧
        ∃ r, s.id = "break-" ++ half ++ "-" ++ Nat.repr r) := by
  intro rem
  induction rem with
  | zero => intro round t s h; simp [packRounds] at h
  | succ rem ih =>
    intro round t s h
    rw [packRounds] at h
    split at h
    · simp only [List.mem_append, List.mem_cons] at h
      rcases h with h | h | h
      · exact Or.inl (mem_trackRound h)
      · subst h; exact Or.inr ⟨rfl, rfl, round, rfl⟩
      · exact ih h
    · simp only [List.mem_append] at h
      rcases h with h | h
      · exact Or.inl (mem_trackRound h)
      · exact ih h

/-- C4: whenever the timeline builder returns a timeline, the lunch break
session starts no later than `840 - startTimeMinutesPastMidnight` minutes
after the event start. -/
theorem c4_deadline_respected (config : TrackDayConfig) (groups : List String)
    (startMin : Nat) (sessions : List Session)
    (hparse : startMinutes config.startTime = some startMin)
    (hsome : createSessions config groups = some sessions) :
    ∀ sess ∈ sessions, sess.id = "lunch-1" →
      sess.relStart ≤ 840 - (startMin : Int) := by
  have hs : sessions = buildSessions config groups startMin := by
    simp only [createSessions, hparse] at hsome
    split at hsome
    · exact absurd hsome (by simp)
    · exact (Option.some.inj hsome).symm
  subst hs
  intro sess hmem hid
  simp only [buildSessions, List.cons_append, List.nil_append, List.mem_cons,
    List.mem_append] at hmem
  rcases hmem with h | h | h | h | h
  · rw [h] at hid
    exact absurd (show "meeting-1" = "lunch-1" from hid) (by decide)
  · rw [h] at hid
    exact absurd (show "tech-1" = "lunch-1" from hid) (by decide)
  · rcases mem_packRounds h with ⟨_, _, r, g, hi⟩ | ⟨_, _, r, hi⟩
    · rw [hi] at hid; exact absurd hid (track_id_ne_lunch _ _ _)
    · rw [hi] at hid; exact absurd hid (break_id_ne_lunch _ _)
  · rw [h]
    exact min_le_right _ _
  · rcases mem_packRounds h with ⟨_, _, r, g, hi⟩ | ⟨_, _, r, hi⟩
    · rw [hi] at hid; exact absurd hid (track_id_ne_lunch _ _ _)
    · rw [hi] at hid; exact absurd hid (break_id_ne_lunch _ _)

/-- A configuration whose morning window fits no round (sessionDuration 200,
one group), giving a four-session timeline with the lunch at index 2. -/
def deadlineWitnessConfig : TrackDayConfig :=
  ⟨"08:00", 480, 200, 1, .random, 60, 30, 15, 15⟩

/-- Witness for the deadline theorem at a concrete input: the lunch session of
the concrete timeline starts at 45 ≤ 840 − 480. -/
theorem c4_deadline_witness :
    (⟨"lunch-1", 45, 105, "08:45", "09:45", "All", .rest, "Lunch Break"⟩ : Session).relStart ≤
      840 - (480 : Int) := by
  have h := c4_deadline_respected deadlineWitnessConfig ["Group 1"] 480
    ((createSessions deadlineWitnessConfig ["Group 1"]).getD []) rfl rfl
  exact h _ (by decide) rfl

/-!
## Partition completeness
-/

theorem orderedInsert_perm (le : α → α → Bool) (a : α) :
    ∀ l : List α, (orderedInsert le a l).Perm (a :: l) := by
  intro l
  induction l with
  | nil => simp [orderedInsert]
  | cons b l ih =>
    rw [orderedInsert]
    split
    · exact List.Perm.refl _
    · exact (ih.cons b).trans (List.Perm.swap a b l)

theorem stableSort_perm (le : α → α → Bool) :
    ∀ l : List α, (stableSort le l).Perm l := by
  intro l
  induction l with
  | nil => exact List.Perm.refl _
  | cons a l ih =>
    rw [stableSort]
    exact (orderedInsert_perm le a _).trans (ih.cons a)

/-- The group entry contributed by one skill level in skill mode. -/
def skillEntry (lc : String → String → Ordering) (drivers : List Driver)
    (sk : SkillLevel) : List (String × List Driver) :=
  let driversWithSkill :=
    stableSort (fun a b => lc a.name b.name != Ordering.gt)
      (drivers.filter fun d => d.skillLevel == sk)
  if 0 < driversWithSkill.length then
    [(capitalizeStr (skillString sk), driversWithSkill)]
  else []

/-- The skill-mode fold builds exactly the concatenation of the per-skill
entries in priority order. -/
theorem assign_skill_eq (lc : String → String → Ordering)
    (config : TrackDayConfig) (drivers shuffled : List Driver)
    (h : config.groupingMethod = .skill) :
    assignDriversToGroups lc config drivers shuffled =
      skillsInOrder.flatMap (skillEntry lc drivers) := by
  simp only [assignDriversToGroups, h, skillsInOrder, skillEntry,
    List.foldl_cons, List.foldl_nil, List.flatMap_cons, List.flatMap_nil,
    List.append_nil]
  split_ifs <;> simp

theorem allDrivers_append (xs ys : List (String × List Driver)) :
    allDrivers (xs ++ ys) = allDrivers xs ++ allDrivers ys := by
  simp [allDrivers]

theorem allDrivers_skillEntry_perm (lc : String → String → Ordering)
    (drivers : List Driver) (sk : SkillLevel) :
    (allDrivers (skillEntry lc drivers sk)).Perm
      (drivers.filter fun d => d.skillLevel == sk) := by
  rw [skillEntry]
  split
  · simpa [allDrivers] using
      stableSort_perm (fun a b : Driver => lc a.name b.name != Ordering.gt)
        (drivers.filter fun d => d.skillLevel == sk)
  · have hsort := stableSort_perm (fun a b : Driver => lc a.name b.name != Ordering.gt)
      (drivers.filter fun d => d.skillLevel == sk)
    have hnil : stableSort (fun a b : Driver => lc a.name b.name != Ordering.gt)
        (drivers.filter fun d => d.skillLevel == sk) = [] := by
      rename_i hlen
      exact List.length_eq_zero.mp (by omega)
    rw [hnil] at hsort
    have : (drivers.filter fun d => d.skillLevel == sk) = [] :=
      (List.perm_nil.mp hsort.symm)
    simp [allDrivers, this]

/-- Filtering by each of the three skill levels partitions the driver list. -/
theorem filter_skills_perm :
    ∀ drivers : List Driver,
      ((drivers.filter fun d => d.skillLevel == SkillLevel.beginner) ++
        ((drivers.filter fun d => d.skillLevel == SkillLevel.intermediate) ++
          (drivers.filter fun d => d.skillLevel == SkillLevel.advanced))).Perm
        drivers := by
  intro drivers
  induction drivers with
  | nil => simp
  | cons d l ih =>
    rcases hd : d.skillLevel with _ | _ | _
    · rw [List.filter_cons_of_pos (by rw [hd]; decide),
        List.filter_cons_of_neg (by rw [hd]; decide),
        List.filter_cons_of_neg (by rw [hd]; decide)]
      exact ih.cons d
    · rw [List.filter_cons_of_neg (by rw [hd]; decide),
        List.filter_cons_of_pos (by rw [hd]; decide),
        List.filter_cons_of_neg (by rw [hd]; decide)]
      exact List.perm_middle.trans (ih.cons d)
    · rw [List.filter_cons_of_neg (by rw [hd]; decide),
        List.filter_cons_of_neg (by rw [hd]; decide),
        List.filter_cons_of_pos (by rw [hd]; decide)]
      exact ((List.perm_middle.append_left
        (l.filter fun d => d.skillLevel == SkillLevel.beginner)).trans
          (List.perm_middle.trans (ih.cons d)))

theorem skill_complete (lc : String → String → Ordering) (drivers : List Driver) :
    (allDrivers (skillsInOrder.flatMap (skillEntry lc drivers))).Perm drivers := by
  have h1 : (allDrivers (skillsInOrder.flatMap (skillEntry lc drivers))).Perm
      ((drivers.filter fun d => d.skillLevel == SkillLevel.beginner) ++
        ((drivers.filter fun d => d.skillLevel == SkillLevel.intermediate) ++
          (drivers.filter fun d => d.skillLevel == SkillLevel.advanced))) := by
    simp only [skillsInOrder, List.flatMap_cons, List.flatMap_nil,
      List.append_nil, allDrivers_append]
    exact (allDrivers_skillEntry_perm lc drivers .beginner).append
      ((allDrivers_skillEntry_perm lc drivers .intermediate).append
        (allDrivers_skillEntry_perm lc drivers .advanced))
  exact h1.trans (filter_skills_perm drivers)

theorem pushToGroup_keys (name : String) (d : Driver) :
    ∀ gs : List (String × List Driver),
      (pushToGroup gs name d).map Prod.fst = gs.map Prod.fst := by
  intro gs
  induction gs with
  | nil => rfl
  | cons e gs ih =>
    obtain ⟨k, ds⟩ := e
    rw [pushToGroup]
    split
    · simp
    · simp [ih]

theorem allDrivers_pushToGroup (name : String) (d : Driver) :
    ∀ gs : List (String × List Driver), name ∈ gs.map Prod.fst →
      (allDrivers (pushToGroup gs name d)).Perm (d :: allDrivers gs) := by
  intro gs
  induction gs with
  | nil => intro h; simp at h
  | cons e gs ih =>
    obtain ⟨k, ds⟩ := e
    intro h
    rw [pushToGroup]
    split
    · simp only [allDrivers, List.flatMap_cons]
      show ((ds ++ [d]) ++ gs.flatMap Prod.snd).Perm
        (d :: (ds ++ gs.flatMap Prod.snd))
      have he : (ds ++ [d]) ++ gs.flatMap Prod.snd
          = ds ++ (d :: gs.flatMap Prod.snd) := by simp
      rw [he]
      exact List.perm_middle
    · rename_i hk
      have hmem : name ∈ gs.map Prod.fst := by
        simp only [List.map_cons, List.mem_cons] at h
        rcases h with h | h
        · exact absurd h.symm hk
        · exact h
      simp only [allDrivers, List.flatMap_cons]
      exact ((ih hmem).append_left ds).trans List.perm_middle

/-- Round-robin distribution preserves the driver multiset: folding the
indexed drivers into non-empty `names` buckets appends exactly the pushed
drivers. -/
theorem allDrivers_fold_push (names : List String) (hne : names ≠ []) :
    ∀ (l : List (Nat × Driver)) (gs : List (String × List Driver)),
      gs.map Prod.fst = names →
      (allDrivers (l.foldl (fun groups p =>
          match names.get? (p.1 % names.length) with
          | some name => pushToGroup groups name p.2
          | none => groups) gs)).Perm (l.map Prod.snd ++ allDrivers gs) := by
  intro l
  induction l with
  | nil => intro gs hk; simp
  | cons p l ih =>
    intro gs hk
    obtain ⟨i, d⟩ := p
    have hlen : 0 < names.length := List.length_pos.mpr hne
    have hlt : i % names.length < names.length := Nat.mod_lt _ hlen
    rw [List.foldl_cons]
    simp only [List.get?_eq_get hlt]
    have hmem : names.get ⟨i % names.length, hlt⟩ ∈ gs.map Prod.fst := by
      rw [hk]; exact List.get_mem names _ hlt
    have hkeys : (pushToGroup gs (names.get ⟨i % names.length, hlt⟩) d).map Prod.fst = names := by
      rw [pushToGroup_keys]; exact hk
    refine (ih _ hkeys).trans ?_
    refine ((allDrivers_pushToGroup _ d gs hmem).append_left (l.map Prod.snd)).trans ?_
    exact List.perm_middle

theorem allDrivers_init_nil (G : Nat) :
    allDrivers ((List.range G).map fun i => ("Group " ++ Nat.repr (i + 1), ([] : List Driver))) = [] := by
  simp [allDrivers]

theorem random_complete (lc : String → String → Ordering)
    (config : TrackDayConfig) (drivers shuffled : List Driver)
    (h : config.groupingMethod = .random)
    (hG : 1 ≤ config.numberOfRunGroups) (hperm : shuffled.Perm drivers) :
    (allDrivers (assignDriversToGroups lc config drivers shuffled)).Perm drivers := by
  simp only [assignDriversToGroups, h]
  have hne : (((List.range config.numberOfRunGroups).map
      fun i => ("Group " ++ Nat.repr (i + 1), ([] : List Driver))).map Prod.fst) ≠ [] := by
    intro e
    have := congrArg List.length e
    simp at this
    omega
  refine (allDrivers_fold_push _ hne shuffled.enum _ rfl).trans ?_
  rw [allDrivers_init_nil, List.append_nil, List.enum_map_snd]
  exact hperm

/-- A skill-mode configuration used as a witness input. -/
def skillConfig : TrackDayConfig :=
  ⟨"08:00", 480, 20, 3, .skill, 60, 30, 15, 15⟩

def driverAlice : Driver := ⟨"d1", "Alice", .beginner⟩

/-- C1 counterexample: with random grouping and `numberOfRunGroups = 0` the
single driver is silently dropped (the guarded push finds no group), so the
multiset of assigned ids is empty rather than the input ids — the claim fails
for this configuration. -/
theorem c1_counterexample :
    ¬ (allIds (assignDriversToGroups localeCompare zeroGroupsConfig
        [driverAlice] [driverAlice])).Perm ([driverAlice].map Driver.id) :=
  fun h => absurd h.length_eq (by decide)

/-- C1 amended: for every driver list, every permutation the shuffle may
produce and every comparator, the assignment contains each driver id exactly
once across all groups, provided that in random mode at least one group is
requested (`numberOfRunGroups ≥ 1`); skill mode needs no proviso.  (The
original claim, quantified over every configuration, fails at
`numberOfRunGroups = 0`.) -/
theorem c1_partition_complete (lc : String → String → Ordering)
    (config : TrackDayConfig) (drivers shuffled : List Driver)
    (hperm : shuffled.Perm drivers)
    (hmode : config.groupingMethod = .skill ∨ 1 ≤ config.numberOfRunGroups) :
    (allIds (assignDriversToGroups lc config drivers shuffled)).Perm
      (drivers.map Driver.id) := by
  have hall : (allDrivers (assignDriversToGroups lc config drivers shuffled)).Perm drivers := by
    cases hgm : config.groupingMethod with
    | skill =>
      rw [assign_skill_eq lc config drivers shuffled hgm]
      exact skill_complete lc drivers
    | random =>
      rcases hmode with h | h
      · rw [hgm] at h; exact absurd h (by simp)
      · exact random_complete lc config drivers shuffled hgm h hperm
  exact hall.map Driver.id

/-- Witness for the amended partition completeness at a concrete input. -/
theorem c1_partition_complete_witness :
    (allIds (assignDriversToGroups localeCompare skillConfig
        [driverAlice] [driverAlice])).Perm ([driverAlice].map Driver.id) :=
  c1_partition_complete localeCompare skillConfig [driverAlice] [driverAlice]
    (List.Perm.refl _) (Or.inl rfl)

/-!
## Group-label agreement
-/

theorem createSessions_some {config : TrackDayConfig} {groups : List String}
    {sessions : List Session}
    (hsome : createSessions config groups = some sessions) :
    ∃ startMin, startMinutes config.startTime = some startMin ∧
      sessions = buildSessions config groups startMin := by
  unfold createSessions at hsome
  rcases hp : startMinutes config.startTime with _ | m
  · rw [hp] at hsome; simp at hsome
  · rw [hp] at hsome
    dsimp only at hsome
    split at hsome
    · simp at hsome
    · exact ⟨m, rfl, (Option.some.inj hsome).symm⟩

/-- Every track session of a generated timeline is scoped to one of the
supplied group labels. -/
theorem track_group_mem (config : TrackDayConfig) (groups : List String) :
    ∀ s ∈ (createSessions config groups).getD [], s.type = .track →
      s.group ∈ groups := by
  intro s hs ht
  rcases ho : createSessions config groups with _ | sessions
  · rw [ho] at hs; simp at hs
  · rw [ho] at hs
    simp only [Option.getD_some] at hs
    obtain ⟨m, hp, hb⟩ := createSessions_some ho
    subst hb
    simp only [buildSessions, List.cons_append, List.nil_append, List.mem_cons,
      List.mem_append] at hs
    rcases hs with h | h | h | h | h
    · rw [h] at ht
      exact absurd (show SessionType.meeting = .track from ht) (by decide)
    · rw [h] at ht
      exact absurd (show SessionType.tech = .track from ht) (by decide)
    · rcases mem_packRounds h with ⟨_, hg, _⟩ | ⟨hty, _, _⟩
      · exact hg
      · rw [hty] at ht
        exact absurd ht (by decide)
    · rw [h] at ht
      exact absurd (show SessionType.rest = .track from ht) (by decide)
    · rcases mem_packRounds h with ⟨_, hg, _⟩ | ⟨hty, _, _⟩
      · exact hg
      · rw [hty] at ht
        exact absurd ht (by decide)

theorem skillEntry_cond (lc : String → String → Ordering) (drivers : List Driver)
    (sk : SkillLevel) :
    (0 < (stableSort (fun a b : Driver => lc a.name b.name != Ordering.gt)
        (drivers.filter fun d => d.skillLevel == sk)).length) ↔
      (drivers.any fun d => d.skillLevel == sk) = true := by
  rw [(stableSort_perm _ _).length_eq, List.length_pos, Ne, List.filter_eq_nil_iff,
    List.any_eq_true]
  push_neg
  simp

theorem keys_skill_flatMap (lc : String → String → Ordering) (drivers : List Driver) :
    ∀ l : List SkillLevel,
      (l.flatMap (skillEntry lc drivers)).map Prod.fst =
        (l.filter fun sk => drivers.any fun d => d.skillLevel == sk).map
          fun sk => capitalizeStr (skillString sk) := by
  intro l
  induction l with
  | nil => rfl
  | cons sk l ih =>
    rw [List.flatMap_cons, List.map_append, ih, List.filter_cons]
    by_cases h : (drivers.any fun d => d.skillLevel == sk) = true
    · rw [if_pos h, skillEntry, if_pos ((skillEntry_cond lc drivers sk).mpr h)]
      rfl
    · rw [if_neg h, skillEntry,
        if_neg (fun hc => h ((skillEntry_cond lc drivers sk).mp hc))]
      rfl

theorem keys_fold_push (names : List String) :
    ∀ (l : List (Nat × Driver)) (gs : List (String × List Driver)),
      (l.foldl (fun groups p =>
          match names.get? (p.1 % names.length) with
          | some name => pushToGroup groups name p.2
          | none => groups) gs).map Prod.fst = gs.map Prod.fst := by
  intro l
  induction l with
  | nil => intro gs; rfl
  | cons p l ih =>
    intro gs
    rw [List.foldl_cons]
    rcases hg : names.get? (p.1 % names.length) with _ | name
    · simp only [hg]
      exact ih gs
    · simp only [hg]
      rw [ih (pushToGroup gs name p.2), pushToGroup_keys]

/-- C10: for every driver list, configuration, shuffle permutation and
comparator, the group labels built by `createGroups` coincide, in order, with
the keys of the assignment built by `assignDriversToGroups`; consequently every
track session of the generated timeline is scoped to a group label of the
assignment. -/
theorem c10_label_agreement (lc : String → String → Ordering)
    (config : TrackDayConfig) (drivers shuffled : List Driver) :
    (assignDriversToGroups lc config drivers shuffled).map Prod.fst =
      createGroups drivers config ∧
    ∀ s ∈ (createSessions config (createGroups drivers config)).getD [],
      s.type = .track →
        s.group ∈ (assignDriversToGroups lc config drivers shuffled).map Prod.fst := by
  have hkeys : (assignDriversToGroups lc config drivers shuffled).map Prod.fst =
      createGroups drivers config := by
    cases hgm : config.groupingMethod with
    | skill =>
      rw [assign_skill_eq lc config drivers shuffled hgm]
      simp only [createGroups, hgm]
      exact keys_skill_flatMap lc drivers skillsInOrder
    | random =>
      simp only [assignDriversToGroups, createGroups, hgm]
      rw [keys_fold_push]
      simp [List.map_map, Function.comp]
  refine ⟨hkeys, ?_⟩
  rw [hkeys]
  exact track_group_mem config (createGroups drivers config)

/-!
## Properties of the locale comparator model
-/

theorem cmpKeyList_eq_iff : ∀ {as bs : List Nat}, cmpKeyList as bs = .eq ↔ as = bs := by
  intro as
  induction as with
  | nil => intro bs; cases bs <;> simp [cmpKeyList]
  | cons a as ih =>
    intro bs
    cases bs with
    | nil => simp [cmpKeyList]
    | cons b bs =>
      rw [cmpKeyList]
      rcases h : compare a b with _ | _ | _
      · have hab : a < b := Nat.compare_eq_lt.mp h
        simp only [List.cons.injEq]
        constructor
        · intro e; exact absurd e (by simp)
        · rintro ⟨e, _⟩; omega
      · have hab : a = b := Nat.compare_eq_eq.mp h
        subst hab
        simp [ih]
      · have hab : b < a := Nat.compare_eq_gt.mp h
        simp only [List.cons.injEq]
        constructor
        · intro e; exact absurd e (by simp)
        · rintro ⟨e, _⟩; omega

theorem natCompare_swap (a b : Nat) : compare b a = (compare a b).swap := by
  rcases Nat.lt_trichotomy a b with h | h | h
  · rw [Nat.compare_eq_lt.mpr h, Nat.compare_eq_gt.mpr h]; rfl
  · subst h; rw [Nat.compare_eq_eq.mpr rfl]; rfl
  · rw [Nat.compare_eq_gt.mpr h, Nat.compare_eq_lt.mpr h]; rfl

theorem cmpKeyList_swap : ∀ (as bs : List Nat), cmpKeyList bs as = (cmpKeyList as bs).swap := by
  intro as
  induction as with
  | nil => intro bs; cases bs <;> rfl
  | cons a as ih =>
    intro bs
    cases bs with
    | nil => rfl
    | cons b bs =>
      rw [cmpKeyList, cmpKeyList, natCompare_swap]
      rcases compare a b with _ | _ | _
      · rfl
      · exact ih bs
      · rfl

theorem cmpKeyList_cons (a b : Nat) (as bs : List Nat) :
    cmpKeyList (a :: as) (b :: bs) =
      if a < b then .lt else if b < a then .gt else cmpKeyList as bs := by
  rw [cmpKeyList]
  rcases h : compare a b with _ | _ | _
  · rw [if_pos (Nat.compare_eq_lt.mp h)]
  · have e : a = b := Nat.compare_eq_eq.mp h
    subst e
    rw [if_neg (by omega), if_neg (by omega)]
  · have hba : b < a := Nat.compare_eq_gt.mp h
    rw [if_neg (by omega), if_pos hba]

theorem cmpKeyList_lt_trans :
    ∀ {as bs cs : List Nat}, cmpKeyList as bs = .lt → cmpKeyList bs cs = .lt →
      cmpKeyList as cs = .lt := by
  intro as
  induction as with
  | nil =>
    intro bs cs h1 h2
    cases bs with
    | nil => exact h2
    | cons b bs =>
      cases cs with
      | nil => simp [cmpKeyList] at h2
      | cons c cs => rfl
  | cons a as ih =>
    intro bs cs h1 h2
    cases bs with
    | nil => simp [cmpKeyList] at h1
    | cons b bs =>
      cases cs with
      | nil => simp [cmpKeyList] at h2
      | cons c cs =>
        rw [cmpKeyList_cons] at h1 h2 ⊢
        by_cases hab : a < b
        · rw [if_pos hab] at h1
          by_cases hbc : b < c
          · rw [if_pos (by omega : a < c)]
          · rw [if_neg hbc] at h2
            by_cases hcb : c < b
            · rw [if_pos hcb] at h2
              exact absurd h2 (by decide)
            · rw [if_neg hcb] at h2
              have e : b = c := by omega
              subst e
              rw [if_pos hab]
        · rw [if_neg hab] at h1
          by_cases hba : b < a
          · rw [if_pos hba] at h1
            exact absurd h1 (by decide)
          · rw [if_neg hba] at h1
            have e : a = b := by omega
            subst e
            by_cases hac : a < c
            · rw [if_pos hac] at h2 ⊢
            · rw [if_neg hac] at h2 ⊢
              by_cases hca : c < a
              · rw [if_pos hca] at h2
                exact absurd h2 (by decide)
              · rw [if_neg hca] at h2 ⊢
                exact ih h1 h2

theorem charToNat_injective {a b : Char} (h : a.toNat = b.toNat) : a = b := by
  have e := congrArg Char.ofNat h
  rwa [Char.ofNat_toNat, Char.ofNat_toNat] at e

theorem rawKey_inj {s t : String} (h : rawKey s = rawKey t) : s = t := by
  apply String.ext
  exact List.map_injective_iff.mpr (fun a b => charToNat_injective) h

theorem localeCompare_eq_iff {s t : String} : localeCompare s t = .eq ↔ s = t := by
  constructor
  · intro h
    rw [localeCompare] at h
    rcases hp : cmpKeyList (ciKey s) (ciKey t) with _ | _ | _ <;> rw [hp] at h
    · exact absurd h (by simp)
    · exact rawKey_inj (cmpKeyList_eq_iff.mp h)
    · exact absurd h (by simp)
  · intro h
    subst h
    rw [localeCompare, cmpKeyList_eq_iff.mpr rfl]
    exact cmpKeyList_eq_iff.mpr rfl

theorem localeCompare_swap (s t : String) :
    localeCompare t s = (localeCompare s t).swap := by
  rw [localeCompare, localeCompare, cmpKeyList_swap (ciKey s) (ciKey t),
    cmpKeyList_swap (rawKey s) (rawKey t)]
  rcases cmpKeyList (ciKey s) (ciKey t) with _ | _ | _ <;> rfl

theorem localeCompare_lt_trans {s t u : String}
    (h1 : localeCompare s t = .lt) (h2 : localeCompare t u = .lt) :
    localeCompare s u = .lt := by
  rw [localeCompare] at h1 h2 ⊢
  rcases hp1 : cmpKeyList (ciKey s) (ciKey t) with _ | _ | _ <;> rw [hp1] at h1
  · rcases hp2 : cmpKeyList (ciKey t) (ciKey u) with _ | _ | _ <;> rw [hp2] at h2
    · rw [cmpKeyList_lt_trans hp1 hp2]
    · have e : ciKey t = ciKey u := cmpKeyList_eq_iff.mp hp2
      rw [← e, hp1]
    · exact absurd (show Ordering.gt = Ordering.lt from h2) (by decide)
  · have e : ciKey s = ciKey t := cmpKeyList_eq_iff.mp hp1
    replace h1 : cmpKeyList (rawKey s) (rawKey t) = Ordering.lt := h1
    rcases hp2 : cmpKeyList (ciKey t) (ciKey u) with _ | _ | _ <;> rw [hp2] at h2
    · rw [e, hp2]
    · replace h2 : cmpKeyList (rawKey t) (rawKey u) = Ordering.lt := h2
      rw [e, hp2]
      exact cmpKeyList_lt_trans h1 h2
    · exact absurd (show Ordering.gt = Ordering.lt from h2) (by decide)
  · exact absurd (show Ordering.gt = Ordering.lt from h1) (by decide)

/-!
## Sortedness and order independence of the skill-mode sort
-/

theorem mem_orderedInsert {le : α → α → Bool} {a x : α} :
    ∀ {l : List α}, x ∈ orderedInsert le a l → x = a ∨ x ∈ l := by
  intro l
  induction l with
  | nil => intro h; simp [orderedInsert] at h; exact Or.inl h
  | cons b l ih =>
    intro h
    rw [orderedInsert] at h
    split at h
    · rcases List.mem_cons.mp h with h | h
      · exact Or.inl h
      · exact Or.inr h
    · rcases List.mem_cons.mp h with h | h
      · exact Or.inr (h ▸ List.mem_cons_self b l)
      · rcases ih h with h | h
        · exact Or.inl h
        · exact Or.inr (List.mem_cons_of_mem b h)

theorem orderedInsert_pairwise {le : α → α → Bool}
    (total : ∀ a b, le a b = true ∨ le b a = true)
    (trans : ∀ a b c, le a b = true → le b c = true → le a c = true) (a : α) :
    ∀ {l : List α}, l.Pairwise (fun x y => le x y = true) →
      (orderedInsert le a l).Pairwise (fun x y => le x y = true) := by
  intro l
  induction l with
  | nil => intro _; simp [orderedInsert]
  | cons b l ih =>
    intro hp
    obtain ⟨hb, hpl⟩ := List.pairwise_cons.mp hp
    rw [orderedInsert]
    split
    · rename_i hab
      refine List.pairwise_cons.mpr ⟨?_, hp⟩
      intro x hx
      rcases List.mem_cons.mp hx with h | h
      · exact h ▸ hab
      · exact trans a b x hab (hb x h)
    · rename_i hab
      have hba : le b a = true := by
        rcases total a b with h | h
        · exact absurd h hab
        · exact h
      refine List.pairwise_cons.mpr ⟨?_, ih hpl⟩
      intro x hx
      rcases mem_orderedInsert hx with h | h
      · exact h ▸ hba
      · exact hb x h

theorem stableSort_pairwise {le : α → α → Bool}
    (total : ∀ a b, le a b = true ∨ le b a = true)
    (trans : ∀ a b c, le a b = true → le b c = true → le a c = true) :
    ∀ l : List α, (stableSort le l).Pairwise (fun x y => le x y = true) := by
  intro l
  induction l with
  | nil => simp [stableSort]
  | cons a l ih =>
    rw [stableSort]
    exact orderedInsert_pairwise total trans a ih

/-- Two sorted permutations of the same multiset agree, provided the order is
antisymmetric on the elements involved. -/
theorem sorted_perm_eq {le : α → α → Bool} :
    ∀ {l₁ l₂ : List α}, l₁.Perm l₂ →
      l₁.Pairwise (fun a b => le a b = true) →
      l₂.Pairwise (fun a b => le a b = true) →
      (∀ a ∈ l₁, ∀ b ∈ l₁, le a b = true → le b a = true → a = b) →
      l₁ = l₂ := by
  intro l₁
  induction l₁ with
  | nil =>
    intro l₂ hp _ _ _
    exact (List.perm_nil.mp hp.symm).symm ▸ rfl
  | cons a t ih =>
    intro l₂ hp hs1 hs2 hanti
    cases l₂ with
    | nil => exact absurd (List.perm_nil.mp hp) (by simp)
    | cons b u =>
      have hab : a = b := by
        by_cases hab : a = b
        · exact hab
        · have ha2 : a ∈ u := by
            rcases List.mem_cons.mp (hp.mem_iff.mp (List.mem_cons_self a t)) with h | h
            · exact absurd h hab
            · exact h
          have hb1 : b ∈ t := by
            rcases List.mem_cons.mp (hp.mem_iff.mpr (List.mem_cons_self b u)) with h | h
            · exact absurd h.symm hab
            · exact h
          have h1 : le a b = true := (List.pairwise_cons.mp hs1).1 b hb1
          have h2 : le b a = true := (List.pairwise_cons.mp hs2).1 a ha2
          exact hanti a (List.mem_cons_self a t) b (List.mem_cons_of_mem a hb1) h1 h2
      subst hab
      have ht : t.Perm u := hp.cons_inv
      have he : t = u :=
        ih ht (List.pairwise_cons.mp hs1).2 (List.pairwise_cons.mp hs2).2
          (fun x hx y hy => hanti x (List.mem_cons_of_mem a hx) y (List.mem_cons_of_mem a hy))
      rw [he]

/-- The Boolean comparator of the skill-mode sort (for the concrete
`localeCompare` model): `a` is kept before `b` when the comparator does not
answer `gt`, matching `cmp(a, b) <= 0` in JS. -/
theorem bne_gt_iff {o : Ordering} : ((o != Ordering.gt) = true) ↔ o ≠ Ordering.gt := by
  cases o <;> decide

theorem driverLe_total (a b : Driver) :
    (localeCompare a.name b.name != Ordering.gt) = true ∨
      (localeCompare b.name a.name != Ordering.gt) = true := by
  rw [bne_gt_iff, bne_gt_iff]
  rcases h : localeCompare a.name b.name with _ | _ | _
  · left; decide
  · left; decide
  · right
    rw [localeCompare_swap a.name b.name, h]
    decide

theorem driverLe_trans (a b c : Driver) :
    (localeCompare a.name b.name != Ordering.gt) = true →
    (localeCompare b.name c.name != Ordering.gt) = true →
    (localeCompare a.name c.name != Ordering.gt) = true := by
  rw [bne_gt_iff, bne_gt_iff, bne_gt_iff]
  intro h1 h2
  rcases hab : localeCompare a.name b.name with _ | _ | _
  · rcases hbc : localeCompare b.name c.name with _ | _ | _
    · rw [localeCompare_lt_trans hab hbc]
      decide
    · rw [← localeCompare_eq_iff.mp hbc, hab]
      decide
    · exact absurd hbc h2
  · rw [localeCompare_eq_iff.mp hab]
    exact h2
  · exact absurd hab h1

theorem driverLe_antisymm_names {a b : Driver}
    (h1 : (localeCompare a.name b.name != Ordering.gt) = true)
    (h2 : (localeCompare b.name a.name != Ordering.gt) = true) :
    a.name = b.name := by
  rw [bne_gt_iff] at h1 h2
  rcases hab : localeCompare a.name b.name with _ | _ | _
  · exfalso
    apply h2
    rw [localeCompare_swap a.name b.name, hab]
    rfl
  · exact localeCompare_eq_iff.mp hab
  · exact absurd hab h1

theorem skill_beq_iff {a b : SkillLevel} : (a == b) = true ↔ a = b := by
  cases a <;> cases b <;> decide

theorem stableSort_filter_eq (drivers drivers' : List Driver) (sk : SkillLevel)
    (hperm : drivers'.Perm drivers)
    (hnames : ∀ a ∈ drivers, ∀ b ∈ drivers,
      a.skillLevel = b.skillLevel → a.name = b.name → a = b) :
    stableSort (fun a b => localeCompare a.name b.name != Ordering.gt)
        (drivers'.filter fun d => d.skillLevel == sk) =
      stableSort (fun a b => localeCompare a.name b.name != Ordering.gt)
        (drivers.filter fun d => d.skillLevel == sk) := by
  apply sorted_perm_eq
  · exact ((stableSort_perm _ _).trans (hperm.filter _)).trans (stableSort_perm _ _).symm
  · exact stableSort_pairwise driverLe_total (fun a b c => driverLe_trans a b c) _
  · exact stableSort_pairwise driverLe_total (fun a b c => driverLe_trans a b c) _
  · intro x hx y hy hxy hyx
    have hx' : x ∈ drivers'.filter fun d => d.skillLevel == sk :=
      (stableSort_perm _ _).mem_iff.mp hx
    have hy' : y ∈ drivers'.filter fun d => d.skillLevel == sk :=
      (stableSort_perm _ _).mem_iff.mp hy
    have hxd : x ∈ drivers := hperm.mem_iff.mp (List.mem_filter.mp hx').1
    have hyd : y ∈ drivers := hperm.mem_iff.mp (List.mem_filter.mp hy').1
    have hsx : x.skillLevel = sk := skill_beq_iff.mp (List.mem_filter.mp hx').2
    have hsy : y.skillLevel = sk := skill_beq_iff.mp (List.mem_filter.mp hy').2
    exact hnames x hxd y hyd (hsx.trans hsy.symm) (driverLe_antisymm_names hxy hyx)

theorem skillEntry_congr (lc : String → String → Ordering)
    {drivers drivers' : List Driver} (sk : SkillLevel)
    (h : stableSort (fun a b => lc a.name b.name != Ordering.gt)
          (drivers'.filter fun d => d.skillLevel == sk) =
        stableSort (fun a b => lc a.name b.name != Ordering.gt)
          (drivers.filter fun d => d.skillLevel == sk)) :
    skillEntry lc drivers' sk = skillEntry lc drivers sk := by
  simp only [skillEntry]
  rw [h]

/-- C7 amended: in skill mode, with the locale comparator model, every group
of the assignment is sorted ascending by name under the comparator (which is
case-insensitive at the primary level, not code-unit order), and — provided no
two distinct drivers of the same skill level share a name — the output is
identical for every permutation of the input list.  (The original claim fails
for duplicate names, whose stable-sort tie keeps input order, and wrongly
describes the order as case-sensitive lexical.) -/
theorem c7_sorted_order_independent (config : TrackDayConfig)
    (drivers drivers' shuffled shuffled' : List Driver)
    (hmode : config.groupingMethod = .skill)
    (hperm : drivers'.Perm drivers)
    (hnames : ∀ a ∈ drivers, ∀ b ∈ drivers,
      a.skillLevel = b.skillLevel → a.name = b.name → a = b) :
    (∀ entry ∈ assignDriversToGroups localeCompare config drivers shuffled,
      entry.2.Pairwise
        (fun a b : Driver => localeCompare a.name b.name ≠ Ordering.gt)) ∧
    assignDriversToGroups localeCompare config drivers' shuffled' =
      assignDriversToGroups localeCompare config drivers shuffled := by
  constructor
  · intro entry hentry
    rw [assign_skill_eq localeCompare config drivers shuffled hmode] at hentry
    rcases List.mem_flatMap.mp hentry with ⟨sk, hsk, he⟩
    rw [skillEntry] at he
    split at he
    · have heq := List.mem_singleton.mp he
      rw [heq]
      have hp := stableSort_pairwise driverLe_total
        (fun a b c => driverLe_trans a b c)
        (drivers.filter fun d => d.skillLevel == sk)
      exact hp.imp (fun h => bne_gt_iff.mp h)
    · simp at he
  · rw [assign_skill_eq localeCompare config drivers shuffled hmode,
      assign_skill_eq localeCompare config drivers' shuffled' hmode]
    simp only [skillsInOrder, List.flatMap_cons, List.flatMap_nil]
    rw [skillEntry_congr localeCompare SkillLevel.beginner
        (stableSort_filter_eq drivers drivers' .beginner hperm hnames),
      skillEntry_congr localeCompare SkillLevel.intermediate
        (stableSort_filter_eq drivers drivers' .intermediate hperm hnames),
      skillEntry_congr localeCompare SkillLevel.advanced
        (stableSort_filter_eq drivers drivers' .advanced hperm hnames)]

def driverAliceTwo : Driver := ⟨"d2", "Alice", .beginner⟩

def driverLowerA : Driver := ⟨"d3", "a", .beginner⟩

def driverUpperB : Driver := ⟨"d4", "B", .beginner⟩

/-- C7 counterexample: two beginners both named `Alice` keep their input order
(the stable sort leaves comparator ties in place), so permuting the input
permutes the output — the output is not permutation independent; and with
beginners named `a` and `B` the group comes out `[a, B]` (locale order), which
is not sorted in case-sensitive lexical (code-unit) ascending order, because
the code unit of `B` (66) is below that of `a` (97). -/
theorem c7_counterexample :
    assignDriversToGroups localeCompare skillConfig [driverAlice, driverAliceTwo]
        [driverAlice, driverAliceTwo] ≠
      assignDriversToGroups localeCompare skillConfig [driverAliceTwo, driverAlice]
        [driverAliceTwo, driverAlice] ∧
    ¬ ∀ entry ∈ assignDriversToGroups localeCompare skillConfig
        [driverLowerA, driverUpperB] [driverLowerA, driverUpperB],
        entry.2.Pairwise (fun a b : Driver =>
          cmpKeyList (rawKey a.name) (rawKey b.name) ≠ Ordering.gt) := by
  exact ⟨by decide, by decide⟩

/-- Witness for the amended C7 at a concrete input with distinct names. -/
theorem c7_witness :
    (∀ entry ∈ assignDriversToGroups localeCompare skillConfig
        [driverUpperB, driverLowerA] [driverUpperB, driverLowerA],
      entry.2.Pairwise
        (fun a b : Driver => localeCompare a.name b.name ≠ Ordering.gt)) ∧
    assignDriversToGroups localeCompare skillConfig
        [driverLowerA, driverUpperB] [driverLowerA, driverUpperB] =
      assignDriversToGroups localeCompare skillConfig
        [driverUpperB, driverLowerA] [driverUpperB, driverLowerA] :=
  c7_sorted_order_independent skillConfig [driverUpperB, driverLowerA]
    [driverLowerA, driverUpperB] [driverUpperB, driverLowerA]
    [driverLowerA, driverUpperB] rfl (by decide) (by decide)

/-!
## Random-mode balance: labels are pairwise distinct
-/

theorem digitChar_toNat {m : Nat} (h : m < 10) :
    (Nat.digitChar m).toNat = m + 48 := by
  interval_cases m <;> rfl

theorem toDigitsCore_decode :
    ∀ (fuel n : Nat) (ds : List Char), n < 10 ^ fuel →
      (Nat.toDigitsCore 10 fuel n ds).foldl (fun a c => a * 10 + (c.toNat - 48)) 0 =
        ds.foldl (fun a c => a * 10 + (c.toNat - 48)) n := by
  intro fuel
  induction fuel with
  | zero =>
    intro n ds h
    interval_cases n
    rfl
  | succ fuel ih =>
    intro n ds h
    rw [Nat.toDigitsCore]
    have hm : n % 10 < 10 := Nat.mod_lt _ (by omega)
    by_cases h0 : n / 10 = 0
    · simp only [h0, if_pos]
      rw [List.foldl_cons]
      have hn10 : n < 10 := by omega
      rw [digitChar_toNat hm]
      have : 0 * 10 + (n % 10 + 48 - 48) = n := by omega
      rw [this]
    · simp only [h0, if_neg, ite_false]
      have hlt : n / 10 < 10 ^ fuel := by
        rw [pow_succ, Nat.mul_comm] at h
        exact Nat.div_lt_of_lt_mul h
      rw [ih (n / 10) (Nat.digitChar (n % 10) :: ds) hlt, List.foldl_cons,
        digitChar_toNat hm]
      have : n / 10 * 10 + (n % 10 + 48 - 48) = n := by omega
      rw [this]

theorem repr_decode (n : Nat) :
    (Nat.repr n).data.foldl (fun a c => a * 10 + (c.toNat - 48)) 0 = n := by
  show (Nat.toDigits 10 n).foldl (fun a c => a * 10 + (c.toNat - 48)) 0 = n
  rw [Nat.toDigits]
  have hlt : n < 10 ^ (n + 1) := by
    calc n < 10 ^ n := Nat.lt_pow_self (by omega) n
      _ ≤ 10 ^ (n + 1) := Nat.pow_le_pow_right (by omega) (by omega)
  rw [toDigitsCore_decode (n + 1) n [] hlt]
  rfl

theorem natRepr_injective {m n : Nat} (h : Nat.repr m = Nat.repr n) : m = n := by
  have hm := repr_decode m
  rw [h, repr_decode n] at hm
  exact hm.symm

theorem groupLabel_inj {a b : Nat}
    (h : ("Group " ++ Nat.repr a) = ("Group " ++ Nat.repr b)) : a = b := by
  apply natRepr_injective
  have hd := congrArg String.data h
  rw [String.data_append, String.data_append] at hd
  exact String.ext (List.append_cancel_left hd)

theorem groupLabels_nodup (G : Nat) :
    ((List.range G).map fun i => "Group " ++ Nat.repr (i + 1)).Nodup := by
  refine List.Nodup.map ?_ (List.nodup_range G)
  intro a b hab
  have := groupLabel_inj hab
  omega

/-- With pairwise-distinct keys, pushing to the key at position `j` appends to
exactly the bucket at position `j`. -/
theorem pushToGroup_get? (d : Driver) :
    ∀ (gs : List (String × List Driver)), (gs.map Prod.fst).Nodup →
      ∀ {j : Nat} {name : String}, (gs.map Prod.fst).get? j = some name →
      ∀ k, (pushToGroup gs name d).get? k =
        if k = j then (gs.get? k).map (fun e => (e.1, e.2 ++ [d]))
        else gs.get? k := by
  intro gs
  induction gs with
  | nil => intro _ j name hj k; simp at hj
  | cons e gs ih =>
    obtain ⟨key, ds⟩ := e
    intro hnd j name hj k
    obtain ⟨hkey, hnd2⟩ := List.pairwise_cons.mp hnd
    cases j with
    | zero =>
      have hname : name = key := by
        simp only [List.map_cons, List.get?_cons_zero] at hj
        exact (Option.some.inj hj).symm
      subst hname
      rw [pushToGroup, if_pos rfl]
      cases k with
      | zero => simp
      | succ k => simp [Nat.succ_ne_zero]
    | succ j =>
      have hj2 : (gs.map Prod.fst).get? j = some name := by
        simp only [List.map_cons, List.get?_cons_succ] at hj
        exact hj
      have hmem : name ∈ gs.map Prod.fst := by
        rcases List.get?_eq_some.mp hj2 with ⟨hlt, hget⟩
        exact hget ▸ List.get_mem _ _ _
      have hne : key ≠ name := hkey name hmem
      rw [pushToGroup, if_neg hne]
      cases k with
      | zero => simp
      | succ k =>
        simp only [List.get?_cons_succ]
        rw [ih hnd2 hj2 k]
        by_cases hk : k = j
        · rw [if_pos hk, if_pos (by omega : k + 1 = j + 1)]
        · rw [if_neg hk, if_neg (by omega : ¬ k + 1 = j + 1)]

/-- Round-robin bucket contents: after folding the indexed drivers, the bucket
at position `k` has received exactly the drivers whose index is `k` modulo the
number of groups, in index order. -/
theorem fold_buckets (names : List String) (hnd : names.Nodup) (hne : names ≠ []) :
    ∀ (l : List (Nat × Driver)) (gs : List (String × List Driver)),
      gs.map Prod.fst = names →
      ∀ k, (l.foldl (fun groups p =>
          match names.get? (p.1 % names.length) with
          | some name => pushToGroup groups name p.2
          | none => groups) gs).get? k =
        (gs.get? k).map (fun e =>
          (e.1, e.2 ++ (l.filter fun p => p.1 % names.length == k).map Prod.snd)) := by
  intro l
  induction l with
  | nil =>
    intro gs hk k
    rcases h : gs.get? k with _ | e
    · rw [List.foldl_nil, h]
      rfl
    · rw [List.foldl_nil, h]
      simp
  | cons p l ih =>
    intro gs hk k
    obtain ⟨i, d⟩ := p
    have hlen : 0 < names.length := List.length_pos.mpr hne
    have hlt : i % names.length < names.length := Nat.mod_lt _ hlen
    rw [List.foldl_cons]
    simp only [List.get?_eq_get hlt]
    have hget : (gs.map Prod.fst).get? (i % names.length) =
        some (names.get ⟨i % names.length, hlt⟩) := by
      rw [hk]
      exact List.get?_eq_get hlt
    have hkeys : (pushToGroup gs (names.get ⟨i % names.length, hlt⟩) d).map Prod.fst =
        names := by
      rw [pushToGroup_keys]; exact hk
    rw [ih (pushToGroup gs (names.get ⟨i % names.length, hlt⟩) d) hkeys k,
      pushToGroup_get? d gs (hk ▸ hnd) hget k]
    by_cases hik : k = i % names.length
    · subst hik
      rw [if_pos rfl]
      rcases gs.get? (i % names.length) with _ | e
      · rfl
      · simp [List.filter_cons, List.append_assoc]
    · rw [if_neg hik]
      rcases gs.get? k with _ | e
      · rfl
      · have hf : (i % names.length == k) = false := by
          simp only [beq_eq_false_iff_ne, ne_eq]
          exact fun e2 => hik e2.symm
        simp [List.filter_cons, hf]

theorem natBeq_ite (a b : Nat) :
    (if (a == b) = true then 1 else 0) = if a = b then 1 else 0 := by
  by_cases h : a = b <;> simp [h]

/-- Counting the indices below `N` congruent to `k` modulo `G`. -/
theorem countP_mod_range {G k : Nat} (hG : 0 < G) (hk : k < G) :
    ∀ N, (List.range N).countP (fun i => i % G == k) =
      N / G + if k < N % G then 1 else 0 := by
  intro N
  induction N with
  | zero => simp
  | succ N ih =>
    rw [List.range_succ, List.countP_append, ih]
    have h1 := Nat.div_add_mod N G
    have h2 : N % G < G := Nat.mod_lt _ hG
    have e : N + 1 = (N % G + 1) + G * (N / G) := by omega
    rcases Nat.lt_or_ge (N % G + 1) G with hc | hc
    · have hmod : (N + 1) % G = N % G + 1 := by
        rw [e, Nat.add_mul_mod_self_left, Nat.mod_eq_of_lt hc]
      have hdiv : (N + 1) / G = N / G := by
        rw [e, Nat.add_mul_div_left _ _ hG, Nat.div_eq_of_lt hc, Nat.zero_add]
      rw [hmod, hdiv]
      simp only [List.countP_cons, List.countP_nil, Nat.zero_add, natBeq_ite]
      split_ifs <;> omega
    · have hGe : N % G + 1 = G := by omega
      have hmod : (N + 1) % G = 0 := by
        rw [e, Nat.add_mul_mod_self_left, hGe, Nat.mod_self]
      have hdiv : (N + 1) / G = N / G + 1 := by
        rw [e, Nat.add_mul_div_left _ _ hG, hGe, Nat.div_self hG, Nat.add_comm]
      rw [hmod, hdiv]
      simp only [List.countP_cons, List.countP_nil, Nat.zero_add, natBeq_ite]
      split_ifs <;> omega

theorem ceil_div_add_one {G q r : Nat} (hG : 0 < G) (hr : r < G) (hr0 : 0 < r) :
    (G * q + r + G - 1) / G = q + 1 := by
  have e : G * q + r + G - 1 = (r - 1) + G * (q + 1) := by
    rw [Nat.mul_succ]
    omega
  rw [e, Nat.add_mul_div_left _ _ hG, Nat.div_eq_of_lt (by omega), Nat.zero_add]

/-- C9: in random mode with `numberOfRunGroups ≥ 1`, exactly that many groups
labeled `Group 1` … `Group G` are created (even if some are empty), and for
every permutation the shuffle may produce, every group's size is `⌊N/G⌋` or
`⌈N/G⌉ = (N + G - 1) / G` where `N` is the number of drivers. -/
theorem c9_random_balance (lc : String → String → Ordering)
    (config : TrackDayConfig) (drivers shuffled : List Driver)
    (hmode : config.groupingMethod = .random)
    (hG : 1 ≤ config.numberOfRunGroups)
    (hperm : shuffled.Perm drivers) :
    (assignDriversToGroups lc config drivers shuffled).map Prod.fst =
      (List.range config.numberOfRunGroups).map
        (fun i => "Group " ++ Nat.repr (i + 1)) ∧
    ∀ k, k < config.numberOfRunGroups →
      ∃ e, (assignDriversToGroups lc config drivers shuffled).get? k = some e ∧
        (e.2.length = drivers.length / config.numberOfRunGroups ∨
          e.2.length = (drivers.length + config.numberOfRunGroups - 1) /
            config.numberOfRunGroups) := by
  have hkeys : (assignDriversToGroups lc config drivers shuffled).map Prod.fst =
      (List.range config.numberOfRunGroups).map (fun i => "Group " ++ Nat.repr (i + 1)) := by
    simp only [assignDriversToGroups, hmode]
    rw [keys_fold_push]
    simp [List.map_map, Function.comp]
  refine ⟨hkeys, ?_⟩
  intro k hk
  have hndnames : ((((List.range config.numberOfRunGroups).map
      fun i => ("Group " ++ Nat.repr (i + 1), ([] : List Driver))).map Prod.fst)).Nodup := by
    rw [List.map_map]
    exact groupLabels_nodup config.numberOfRunGroups
  have hnenames : (((List.range config.numberOfRunGroups).map
      fun i => ("Group " ++ Nat.repr (i + 1), ([] : List Driver))).map Prod.fst) ≠ [] := by
    intro h
    have := congrArg List.length h
    simp at this
    omega
  have hL : (((List.range config.numberOfRunGroups).map
      fun i => ("Group " ++ Nat.repr (i + 1), ([] : List Driver))).map Prod.fst).length =
      config.numberOfRunGroups := by
    simp
  have hinit : (((List.range config.numberOfRunGroups).map
      fun i => ("Group " ++ Nat.repr (i + 1), ([] : List Driver)))).get? k =
      some ("Group " ++ Nat.repr (k + 1), ([] : List Driver)) := by
    rw [List.get?_map, List.get?_range hk]
    rfl
  have hbucket := fold_buckets _ hndnames hnenames shuffled.enum
    ((List.range config.numberOfRunGroups).map
      fun i => ("Group " ++ Nat.repr (i + 1), ([] : List Driver))) rfl k
  rw [hinit, Option.map_some'] at hbucket
  refine ⟨("Group " ++ Nat.repr (k + 1),
      ([] : List Driver) ++ (shuffled.enum.filter
        fun p => p.1 % (((List.range config.numberOfRunGroups).map
          fun i => ("Group " ++ Nat.repr (i + 1), ([] : List Driver))).map
            Prod.fst).length == k).map Prod.snd), ?_, ?_⟩
  · simp only [assignDriversToGroups, hmode]
    exact hbucket
  · simp only [hL, List.nil_append, List.length_map]
    have hcount : (shuffled.enum.filter
        fun p => p.1 % config.numberOfRunGroups == k).length =
        (List.range shuffled.length).countP
          (fun i => i % config.numberOfRunGroups == k) := by
      rw [← List.countP_eq_length_filter, ← List.enum_map_fst shuffled, List.countP_map]
      rfl
    rw [hcount, countP_mod_range (by omega) hk, hperm.length_eq]
    by_cases hrem : k < drivers.length % config.numberOfRunGroups
    · right
      rw [if_pos hrem]
      have h1 := Nat.div_add_mod drivers.length config.numberOfRunGroups
      have h2 : drivers.length % config.numberOfRunGroups < config.numberOfRunGroups :=
        Nat.mod_lt _ (by omega)
      have h3 : (drivers.length + config.numberOfRunGroups - 1) /
          config.numberOfRunGroups =
          drivers.length / config.numberOfRunGroups + 1 := by
        conv_lhs => rw [← h1]
        exact ceil_div_add_one (by omega) h2 (by omega)
      rw [h3]
    · left
      rw [if_neg hrem]
      omega

/-- Witness for C9 at a concrete input: four drivers into three groups. -/
theorem c9_random_balance_witness :
    (assignDriversToGroups localeCompare defaultConfig
        [driverAlice, driverAliceTwo, driverLowerA, driverUpperB]
        [driverLowerA, driverAlice, driverUpperB, driverAliceTwo]).map Prod.fst =
      (List.range defaultConfig.numberOfRunGroups).map
        (fun i => "Group " ++ Nat.repr (i + 1)) ∧
    ∀ k, k < defaultConfig.numberOfRunGroups →
      ∃ e, (assignDriversToGroups localeCompare defaultConfig
          [driverAlice, driverAliceTwo, driverLowerA, driverUpperB]
          [driverLowerA, driverAlice, driverUpperB, driverAliceTwo]).get? k = some e ∧
        (e.2.length = ([driverAlice, driverAliceTwo, driverLowerA,
            driverUpperB].length : Nat) / defaultConfig.numberOfRunGroups ∨
          e.2.length = ([driverAlice, driverAliceTwo, driverLowerA,
            driverUpperB].length + defaultConfig.numberOfRunGroups - 1) /
              defaultConfig.numberOfRunGroups) :=
  c9_random_balance localeCompare defaultConfig
    [driverAlice, driverAliceTwo, driverLowerA, driverUpperB]
    [driverLowerA, driverAlice, driverUpperB, driverAliceTwo]
    rfl (by decide) (by decide)
